import Mathlib

/-!
# Verification of the tfdiff core (main.go)

A shallow embedding of the tfdiff program: the document parser
(`parse`, `decodeResource`, `decodeAttributes`, `decodeBlocks`) and the
structural differ (`diff`) from `main.go`, together with the CLI rendering
of the changed-name set.

Go maps (`map[string]cty.Value`, `map[string]Block`,
`map[string]*Resource`) are embedded as association lists
`List (String × α)`; Go map insertion `m[k] = v` is `insertAL` (overwrite
the entry for `k`, keeping all other entries).  A Go `nil` map is `none`
and a non-nil map is `some l`; `reflect.DeepEqual` distinguishes the two,
and our equality functions reproduce that.  Go's guarantee that a map has
no duplicate keys is expressed by explicit `nodupKeysB` well-formedness
predicates where a statement needs it.

`cty.Value` (the go-cty value type produced by evaluating an HCL
expression) is embedded as the inductive `Value`: strings, numbers
(arbitrary precision, embedded as `Rat`), booleans, sequences
(list/set/tuple collapsed into `Value.vlist`), string-keyed collections
(map/object collapsed into `Value.vmap`), the distinguished unknown
marker (`cty.DynamicVal`) and the null marker.  `reflect.DeepEqual` on
the underlying Go representation compares keyed collections as maps
(unordered, no duplicate keys) and sequences positionally; `valueEq`
mirrors that.

The HCL native-syntax input (`hclsyntax.Body` / `hclsyntax.Block` /
`hclsyntax.Attribute`) is embedded as `HBody` / `HBlock` / `HAttr`.  An
attribute's expression is embedded abstractly as `HExpr`: either a
literal that evaluates successfully to a `Value`, or an expression whose
evaluation in the empty `hcl.EvalContext` fails, in which case
`Expr.Value` returns the unknown value (`cty.DynamicVal`) together with
error diagnostics; `evalExpr` returns the pair (value, hasErrors), and
the program discards the second component (`v, _ := attr.Expr.Value(...)`).
-/

set_option autoImplicit false

namespace Tfdiff

/-! ## Association lists standing for Go maps -/

/-- Go map read `m[k]`: the value stored for key `k`, if any. -/
def lookupAL {α : Type} (k : String) : List (String × α) → Option α
  | [] => none
  | (k', v) :: rest => if k' == k then some v else lookupAL k rest

/-- Go map write `m[k] = v`: overwrite the entry for `k`, or append it. -/
def insertAL {α : Type} (k : String) (v : α) : List (String × α) → List (String × α)
  | [] => [(k, v)]
  | (k', v') :: rest => if k' == k then (k, v) :: rest else (k', v') :: insertAL k v rest

/-- Every key of `l1` occurs in `l2`. -/
def keysIn {α β : Type} (l1 : List (String × α)) (l2 : List (String × β)) : Bool :=
  l1.all fun kv => (lookupAL kv.1 l2).isSome

/-- The Go-map invariant: an association list has no duplicate keys. -/
def nodupKeysB {α : Type} : List (String × α) → Bool
  | [] => true
  | (k, _) :: rest => !(rest.any fun kv => kv.1 == k) && nodupKeysB rest

/-! ## `cty.Value` -/

/-- The embedding of `cty.Value`: the result of evaluating an attribute
expression.  Sequence kinds (list/set/tuple) are collapsed into `vlist`,
string-keyed kinds (map/object) into `vmap`; `unknown` is
`cty.DynamicVal`, `vnull` is the null value. -/
inductive Value : Type where
  | str (s : String)
  | num (n : Rat)
  | bool (b : Bool)
  | vlist (elems : List Value)
  | vmap (fields : List (String × Value))
  | unknown
  | vnull

/-! `reflect.DeepEqual` on two `cty.Value`s: tag-respecting structural
equality; sequences compare positionally, keyed collections compare as
maps (same key set, deeply equal value at each key). -/
mutual

def valueEq : Value → Value → Bool
  | .str a, .str b => a == b
  | .num a, .num b => a == b
  | .bool a, .bool b => a == b
  | .vlist a, .vlist b => valueListEq a b
  | .vmap a, .vmap b => valueMapSub a b && keysIn b a
  | .unknown, .unknown => true
  | .vnull, .vnull => true
  | _, _ => false

def valueListEq : List Value → List Value → Bool
  | [], [] => true
  | a :: as', b :: bs' => valueEq a b && valueListEq as' bs'
  | _, _ => false

def valueMapSub : List (String × Value) → List (String × Value) → Bool
  | [], _ => true
  | (k, v) :: rest, l2 =>
    (match lookupAL k l2 with
     | some w => valueEq v w
     | none => false) && valueMapSub rest l2

end

/-! Well-formedness of an embedded `cty.Value`: every keyed collection in
it has no duplicate keys (automatic for a Go map). -/
mutual

def valueWF : Value → Bool
  | .vlist es => valueListWF es
  | .vmap fs => nodupKeysB fs && valueFieldsWF fs
  | _ => true

def valueListWF : List Value → Bool
  | [] => true
  | v :: rest => valueWF v && valueListWF rest

def valueFieldsWF : List (String × Value) → Bool
  | [] => true
  | (_, v) :: rest => valueWF v && valueFieldsWF rest

end

/-! ## The tfdiff data model: `Block` and `Resource` -/

/-- `type Block struct { Attributes map[string]cty.Value; Blocks map[string]Block }`.
`none` is a Go `nil` map. -/
inductive Block : Type where
  | mk (attributes : Option (List (String × Value))) (blocks : Option (List (String × Block)))

def Block.attributes : Block → Option (List (String × Value))
  | .mk a _ => a

def Block.nested : Block → Option (List (String × Block))
  | .mk _ b => b

/-- `type Resource struct { Name string; Attributes map[string]cty.Value; Blocks map[string]Block }`. -/
structure Resource : Type where
  name : String
  attributes : Option (List (String × Value))
  blocks : Option (List (String × Block))

/-- `reflect.DeepEqual` on two attribute maps (nil-ness already matched):
same key set, deeply equal value at each key. -/
def valMapEq (a b : List (String × Value)) : Bool :=
  valueMapSub a b && keysIn b a

/-- `reflect.DeepEqual` on two possibly-nil maps: deeply equal iff both
nil, or both non-nil with equal contents. -/
def optEqWith {α : Type} (eq : List (String × α) → List (String × α) → Bool) :
    Option (List (String × α)) → Option (List (String × α)) → Bool
  | none, none => true
  | some a, some b => eq a b
  | _, _ => false

/-! `reflect.DeepEqual` on two `Block`s. -/
mutual

def blockEq : Block → Block → Bool
  | .mk a1 b1, .mk a2 b2 =>
    optEqWith valMapEq a1 a2 &&
    (match b1, b2 with
     | none, none => true
     | some l1, some l2 => blockMapSub l1 l2 && keysIn l2 l1
     | _, _ => false)

def blockMapSub : List (String × Block) → List (String × Block) → Bool
  | [], _ => true
  | (k, v) :: rest, l2 =>
    (match lookupAL k l2 with
     | some w => blockEq v w
     | none => false) && blockMapSub rest l2

end

/-- `reflect.DeepEqual` on two nested-block maps (nil-ness already
matched). -/
def blockMapEq (a b : List (String × Block)) : Bool :=
  blockMapSub a b && keysIn b a

/-- `reflect.DeepEqual(baseResources[name], headResources[name])`: the two
`*Resource` pointers are dereferenced and the structs compared field by
field. -/
def resourceEq (r1 r2 : Resource) : Bool :=
  r1.name == r2.name &&
  optEqWith valMapEq r1.attributes r2.attributes &&
  optEqWith blockMapEq r1.blocks r2.blocks

/-! Well-formedness of a `Block`: its maps have no duplicate keys and its
values are well-formed, recursively (automatic for Go maps). -/
mutual

def blockWF : Block → Bool
  | .mk attrs blocks =>
    (match attrs with
     | none => true
     | some a => nodupKeysB a && valueFieldsWF a) &&
    (match blocks with
     | none => true
     | some bl => nodupKeysB bl && blockEntriesWF bl)

def blockEntriesWF : List (String × Block) → Bool
  | [] => true
  | (_, b) :: rest => blockWF b && blockEntriesWF rest

end

def resourceWF (r : Resource) : Bool :=
  (match r.attributes with
   | none => true
   | some a => nodupKeysB a && valueFieldsWF a) &&
  (match r.blocks with
   | none => true
   | some bl => nodupKeysB bl && blockEntriesWF bl)

/-- Well-formedness of a Collection (`map[string]*Resource`): no duplicate
names, and every stored Resource is well-formed. -/
def collWF (c : List (String × Resource)) : Bool :=
  nodupKeysB c && c.all fun kv => resourceWF kv.2

/-! ## The HCL native-syntax input -/

/-- An attribute expression, embedded abstractly: `lit v` evaluates
successfully to `v`; `unresolvable` is an expression (e.g. a variable
reference) whose evaluation in the empty `hcl.EvalContext` fails, for
which `Expr.Value` returns `cty.DynamicVal` (the unknown value) plus
error diagnostics. -/
inductive HExpr : Type where
  | lit (v : Value)
  | unresolvable

/-- `attr.Expr.Value(&hcl.EvalContext{})`: the resulting value and whether
diagnostics with errors were produced. -/
def evalExpr : HExpr → Value × Bool
  | .lit v => (v, false)
  | .unresolvable => (Value.unknown, true)

/-- `hclsyntax.Attribute`: a name and an expression. -/
structure HAttr : Type where
  name : String
  expr : HExpr

/-! `hclsyntax.Body` and `hclsyntax.Block`.  A body's attributes are a Go
map keyed by name (embedded as a list; HCL rejects duplicate attribute
names in one body, expressed as a `nodup` hypothesis where needed); its
nested blocks are an ordered slice.  A block has a type keyword, a list
of labels, and a body. -/
mutual

inductive HBody : Type where
  | mk (attributes : List HAttr) (blocks : List HBlock)

inductive HBlock : Type where
  | mk (btype : String) (labels : List String) (body : HBody)

end

def HBody.attributes : HBody → List HAttr
  | .mk a _ => a

def HBody.blocks : HBody → List HBlock
  | .mk _ b => b

def HBlock.btype : HBlock → String
  | .mk t _ _ => t

def HBlock.labels : HBlock → List String
  | .mk _ l _ => l

def HBlock.body : HBlock → HBody
  | .mk _ _ b => b

/-! ## The parser (`parse`, `decodeResource`, `decodeAttributes`, `decodeBlocks`) -/

/-- `decodeAttributes`, as the Go range loop over the attributes map:
evaluate each expression in the empty context, discard the diagnostics,
and store the value under the attribute's name. -/
def decodeAttributesAux : List HAttr → List (String × Value) → List (String × Value)
  | [], acc => acc
  | attr :: rest, acc => decodeAttributesAux rest (insertAL attr.name (evalExpr attr.expr).1 acc)

def decodeAttributes (attrs : List HAttr) : List (String × Value) :=
  decodeAttributesAux attrs []

/-! Decoding one body into a `Block`: the shared shape of `decodeResource`
(fields of the result) and of the loop body of `decodeBlocks`.  A map
field is set only when the corresponding part of the body is non-empty
(`if len(...) > 0`), and is a Go `nil` map (`none`) otherwise. -/
mutual

def decodeBody : HBody → Block
  | .mk attrs blocks =>
    Block.mk
      (if attrs.length > 0 then some (decodeAttributes attrs) else none)
      (if blocks.length > 0 then some (decodeBlocksAux blocks []) else none)

/-- `decodeBlocks`, as the Go range loop: decode each nested block's body
and store it under the block's type keyword, overwriting any earlier
sibling of the same type. -/
def decodeBlocksAux : List HBlock → List (String × Block) → List (String × Block)
  | [], acc => acc
  | .mk ty _ body :: rest, acc => decodeBlocksAux rest (insertAL ty (decodeBody body) acc)

end

def decodeBlocks (blocks : List HBlock) : List (String × Block) :=
  decodeBlocksAux blocks []

/-- The Name computed by `decodeResource`:
`fmt.Sprintf("%s.%s", block.Labels[0], block.Labels[1])` for a resource,
`fmt.Sprintf("module.%s", block.Labels[0])` for a module.  The Go code
indexes `Labels` without a length check, so a resource block with fewer
than two labels (or a module block with none) panics; that is `none`
here.  For any other type the Name is left at its zero value `""`
(unreachable from `parse`). -/
def resourceName (b : HBlock) : Option String :=
  if b.btype == "resource" then
    match b.labels with
    | l0 :: l1 :: _ => some (l0 ++ "." ++ l1)
    | _ => none
  else if b.btype == "module" then
    match b.labels with
    | l0 :: _ => some ("module." ++ l0)
    | _ => none
  else some ""

/-- `decodeResource`: compute the Name and decode the body.  `none` is a
Go panic on out-of-range label indexing. -/
def decodeResource (b : HBlock) : Option Resource :=
  match resourceName b with
  | none => none
  | some n =>
    let body := decodeBody b.body
    some { name := n, attributes := body.attributes, blocks := body.nested }

/-- The top-level selection test of `parse`:
`block.Type == "resource" || block.Type == "module"`. -/
def selected (b : HBlock) : Bool :=
  b.btype == "resource" || b.btype == "module"

/-- `parse`, as the Go loop over the top-level blocks of the parsed files
(one flat list: the concatenation of all files' top-level blocks in glob
order): decode each resource/module block and insert it under its Name,
skipping blocks of any other type.  `none` is a Go panic inside
`decodeResource`. -/
def parseAux : List HBlock → List (String × Resource) → Option (List (String × Resource))
  | [], acc => some acc
  | b :: rest, acc =>
    if selected b then
      match decodeResource b with
      | some r => parseAux rest (insertAL r.name r acc)
      | none => none
    else parseAux rest acc

def parse (bs : List HBlock) : Option (List (String × Resource)) :=
  parseAux bs []

/-! ## The differ and the rendering -/

/-- The test applied to a base entry by the first loop of `diff`: the name
is missing from the target, or the two Resources are not
`reflect.DeepEqual`. -/
def resourceChanged (target : List (String × Resource)) (kv : String × Resource) : Bool :=
  match lookupAL kv.1 target with
  | none => true
  | some r2 => !resourceEq kv.2 r2

/-- The two collection loops of `diff`: names of base entries that are
missing from the target or unequal to their target counterpart, followed
by names of target entries missing from the base. -/
def diff (base target : List (String × Resource)) : List String :=
  ((base.filter (resourceChanged target)).map Prod.fst) ++
  ((target.filter fun kv => (lookupAL kv.1 base).isNone).map Prod.fst)

/-- The output of `diff`: one `-target <name> ` pair per changed name when
any exist, the literal `-refresh=false` otherwise. -/
def render (changed : List String) : String :=
  if changed.length > 0 then
    changed.foldl (fun s r => s ++ ("-target " ++ r ++ " ")) ""
  else
    "-refresh=false"

/-! ## Well-formedness of a document

Invariants every real HCL input satisfies (a `cty` keyed value is a Go
map): every literal value appearing in the document is well-formed. -/

def exprWF : HExpr → Bool
  | .lit v => valueWF v
  | .unresolvable => true

mutual

def bodyWF : HBody → Bool
  | .mk attrs blocks => (attrs.all fun a => exprWF a.expr) && blocksWFDoc blocks

def blocksWFDoc : List HBlock → Bool
  | [] => true
  | .mk _ _ body :: rest => bodyWF body && blocksWFDoc rest

end

def docWF (bs : List HBlock) : Bool :=
  blocksWFDoc bs

/-! ## Erasing nested-block labels

`decodeBlocks` reads only a nested block's type keyword and body, never
its labels; `stripDoc` erases all nested labels (keeping top-level ones,
which feed the Name) to state that. -/

mutual

def stripBody : HBody → HBody
  | .mk attrs blocks => .mk attrs (stripNested blocks)

def stripNested : List HBlock → List HBlock
  | [] => []
  | .mk ty _ body :: rest => .mk ty [] (stripBody body) :: stripNested rest

end

def stripDoc : List HBlock → List HBlock
  | [] => []
  | b :: rest => .mk b.btype b.labels (stripBody b.body) :: stripDoc rest

/-! ## Association-list lemmas -/

theorem lookupAL_insertAL {α : Type} (k k' : String) (v : α) (l : List (String × α)) :
    lookupAL k (insertAL k' v l) = if k' == k then some v else lookupAL k l := by
  induction l with
  | nil => by_cases h1 : k' = k <;> simp [insertAL, lookupAL, h1]
  | cons hd tl ih =>
    obtain ⟨k0, v0⟩ := hd
    by_cases h0 : k0 = k'
    · subst h0
      by_cases h1 : k0 = k <;> simp [insertAL, lookupAL, h1]
    · by_cases h1 : k0 = k
      · subst h1
        simp [insertAL, lookupAL, h0, Ne.symm h0]
      · simp [insertAL, lookupAL, h0, h1, ih]

theorem mem_of_lookupAL_eq_some {α : Type} {k : String} {v : α} {l : List (String × α)}
    (h : lookupAL k l = some v) : (k, v) ∈ l := by
  induction l with
  | nil => simp [lookupAL] at h
  | cons hd tl ih =>
    obtain ⟨k0, v0⟩ := hd
    by_cases h0 : k0 = k
    · subst h0
      simp only [lookupAL, beq_self_eq_true, if_true, Option.some.injEq] at h
      subst h
      exact List.mem_cons_self _ _
    · simp only [lookupAL, beq_eq_false_iff_ne.mpr h0, Bool.false_eq_true, if_false] at h
      exact List.mem_cons_of_mem _ (ih h)

theorem lookupAL_isSome_of_mem {α : Type} {k : String} {v : α} {l : List (String × α)}
    (h : (k, v) ∈ l) : (lookupAL k l).isSome = true := by
  induction l with
  | nil => simp at h
  | cons hd tl ih =>
    obtain ⟨k0, v0⟩ := hd
    rcases List.mem_cons.mp h with h1 | h1
    · obtain ⟨rfl, rfl⟩ : k0 = k ∧ v0 = v := by simpa using h1.symm
      simp [lookupAL]
    · by_cases h0 : k0 = k
      · simp [lookupAL, h0]
      · simp only [lookupAL, beq_eq_false_iff_ne.mpr h0, Bool.false_eq_true, if_false]
        exact ih h1

theorem lookupAL_eq_none_iff {α : Type} {k : String} {l : List (String × α)} :
    lookupAL k l = none ↔ ∀ v, (k, v) ∉ l := by
  constructor
  · intro h v hv
    have := lookupAL_isSome_of_mem hv
    rw [h] at this
    simp at this
  · intro h
    cases hl : lookupAL k l with
    | none => rfl
    | some v => exact absurd (mem_of_lookupAL_eq_some hl) (h v)

theorem nodupKeysB_cons_iff {α : Type} {k : String} {v : α} {l : List (String × α)} :
    nodupKeysB ((k, v) :: l) = true ↔
      ((l.any fun kv => kv.1 == k) = false ∧ nodupKeysB l = true) := by
  simp [nodupKeysB]

theorem lookupAL_eq_some_of_mem_nodup {α : Type} {k : String} {v : α} {l : List (String × α)}
    (hn : nodupKeysB l = true) (h : (k, v) ∈ l) : lookupAL k l = some v := by
  induction l with
  | nil => simp at h
  | cons hd tl ih =>
    obtain ⟨k0, v0⟩ := hd
    obtain ⟨hany, htl⟩ := nodupKeysB_cons_iff.mp hn
    rcases List.mem_cons.mp h with h1 | h1
    · obtain ⟨rfl, rfl⟩ : k0 = k ∧ v0 = v := by simpa using h1.symm
      simp [lookupAL]
    · by_cases h0 : k0 = k
      · exfalso
        subst h0
        have : tl.any (fun kv => kv.1 == k0) = true :=
          List.any_eq_true.mpr ⟨(k0, v), h1, by simp⟩
        rw [this] at hany
        simp at hany
      · simp only [lookupAL, beq_eq_false_iff_ne.mpr h0, Bool.false_eq_true, if_false]
        exact ih htl h1

theorem mem_insertAL {α : Type} {kv : String × α} {k : String} {v : α} {l : List (String × α)}
    (h : kv ∈ insertAL k v l) : kv = (k, v) ∨ kv ∈ l := by
  induction l with
  | nil =>
    simp only [insertAL, List.mem_singleton] at h
    exact Or.inl h
  | cons hd tl ih =>
    obtain ⟨k0, v0⟩ := hd
    by_cases h0 : k0 = k
    · subst h0
      simp only [insertAL, beq_self_eq_true, if_true] at h
      rcases List.mem_cons.mp h with h1 | h1
      · exact Or.inl h1
      · exact Or.inr (List.mem_cons_of_mem _ h1)
    · simp only [insertAL, beq_eq_false_iff_ne.mpr h0, Bool.false_eq_true, if_false] at h
      rcases List.mem_cons.mp h with h1 | h1
      · exact Or.inr (h1 ▸ List.mem_cons_self _ _)
      · rcases ih h1 with h2 | h2
        · exact Or.inl h2
        · exact Or.inr (List.mem_cons_of_mem _ h2)

theorem nodupKeysB_insertAL {α : Type} {k : String} {v : α} {l : List (String × α)}
    (hn : nodupKeysB l = true) : nodupKeysB (insertAL k v l) = true := by
  induction l with
  | nil => simp [insertAL, nodupKeysB]
  | cons hd tl ih =>
    obtain ⟨k0, v0⟩ := hd
    obtain ⟨hany, htl⟩ := nodupKeysB_cons_iff.mp hn
    by_cases h0 : k0 = k
    · subst h0
      simp only [insertAL, beq_self_eq_true, if_true]
      exact nodupKeysB_cons_iff.mpr ⟨hany, htl⟩
    · simp only [insertAL, beq_eq_false_iff_ne.mpr h0, Bool.false_eq_true, if_false]
      refine nodupKeysB_cons_iff.mpr ⟨?_, ih htl⟩
      rw [List.any_eq_false] at hany ⊢
      intro kv hkv
      rcases mem_insertAL hkv with h2 | h2
      · subst h2
        simpa using fun h => h0 h.symm
      · exact hany kv h2

theorem insertAL_ne_nil {α : Type} (k : String) (v : α) (l : List (String × α)) :
    insertAL k v l ≠ [] := by
  cases l with
  | nil => simp [insertAL]
  | cons hd tl =>
    obtain ⟨k0, v0⟩ := hd
    by_cases h0 : k0 = k <;> simp [insertAL, h0]

theorem keysIn_iff {α β : Type} {l1 : List (String × α)} {l2 : List (String × β)} :
    keysIn l1 l2 = true ↔ ∀ kv ∈ l1, (lookupAL kv.1 l2).isSome = true := by
  simp [keysIn]

theorem keysIn_self {α : Type} (l : List (String × α)) : keysIn l l = true :=
  keysIn_iff.mpr fun _ h => lookupAL_isSome_of_mem h

/-! ## Reflexivity and symmetry of the deep-equality functions on values -/

theorem valueMapSub_mem {l1 l2 : List (String × Value)} {k : String} {v : Value}
    (h : valueMapSub l1 l2 = true) (hm : (k, v) ∈ l1) :
    ∃ w, lookupAL k l2 = some w ∧ valueEq v w = true := by
  induction l1 with
  | nil => simp at hm
  | cons hd tl ih =>
    obtain ⟨k0, v0⟩ := hd
    simp only [valueMapSub, Bool.and_eq_true] at h
    obtain ⟨h1, h2⟩ := h
    rcases List.mem_cons.mp hm with hm1 | hm1
    · obtain ⟨h3, h4⟩ : k0 = k ∧ v0 = v := by simpa using hm1.symm
      rw [← h3, ← h4]
      cases hl : lookupAL k0 l2 with
      | none => rw [hl] at h1; simp at h1
      | some w => rw [hl] at h1; exact ⟨w, rfl, h1⟩
    · exact ih h2 hm1

theorem valueMapSub_of_forall {l1 l2 : List (String × Value)}
    (h : ∀ kv ∈ l1, ∃ w, lookupAL kv.1 l2 = some w ∧ valueEq kv.2 w = true) :
    valueMapSub l1 l2 = true := by
  induction l1 with
  | nil => simp [valueMapSub]
  | cons hd tl ih =>
    obtain ⟨k0, v0⟩ := hd
    simp only [valueMapSub, Bool.and_eq_true]
    obtain ⟨w, hw, hew⟩ := h (k0, v0) (List.mem_cons_self _ _)
    constructor
    · rw [hw]
      exact hew
    · exact ih fun kv hkv => h kv (List.mem_cons_of_mem _ hkv)

mutual

theorem valueEq_refl : ∀ (v : Value), valueWF v = true → valueEq v v = true
  | .str s, _ => by simp [valueEq]
  | .num n, _ => by simp [valueEq]
  | .bool b, _ => by simp [valueEq]
  | .unknown, _ => by simp [valueEq]
  | .vnull, _ => by simp [valueEq]
  | .vlist es, h => by
    simp only [valueEq]
    exact valueListEq_refl es (by simpa [valueWF] using h)
  | .vmap fs, h => by
    simp only [valueWF, Bool.and_eq_true] at h
    simp only [valueEq, Bool.and_eq_true]
    exact ⟨valueMapSub_refl fs fs h.1 h.2 fun kv hkv => hkv, keysIn_self fs⟩

theorem valueListEq_refl : ∀ (l : List Value), valueListWF l = true → valueListEq l l = true
  | [], _ => by simp [valueListEq]
  | v :: rest, h => by
    simp only [valueListWF, Bool.and_eq_true] at h
    simp only [valueListEq, Bool.and_eq_true]
    exact ⟨valueEq_refl v h.1, valueListEq_refl rest h.2⟩

theorem valueMapSub_refl : ∀ (l fs : List (String × Value)), nodupKeysB fs = true →
    valueFieldsWF l = true → (∀ kv ∈ l, kv ∈ fs) → valueMapSub l fs = true
  | [], _, _, _, _ => by simp [valueMapSub]
  | (k, v) :: rest, fs, hn, hwf, hsub => by
    simp only [valueFieldsWF, Bool.and_eq_true] at hwf
    simp only [valueMapSub, Bool.and_eq_true]
    constructor
    · rw [lookupAL_eq_some_of_mem_nodup hn (hsub (k, v) (List.mem_cons_self _ _))]
      exact valueEq_refl v hwf.1
    · exact valueMapSub_refl rest fs hn hwf.2 fun kv hkv => hsub kv (List.mem_cons_of_mem _ hkv)

end

theorem valueFieldsWF_mem {l : List (String × Value)} {k : String} {v : Value}
    (h : valueFieldsWF l = true) (hm : (k, v) ∈ l) : valueWF v = true := by
  induction l with
  | nil => simp at hm
  | cons hd tl ih =>
    obtain ⟨k0, v0⟩ := hd
    simp only [valueFieldsWF, Bool.and_eq_true] at h
    rcases List.mem_cons.mp hm with hm1 | hm1
    · obtain ⟨rfl, rfl⟩ : k0 = k ∧ v0 = v := by simpa using hm1.symm
      exact h.1
    · exact ih h.2 hm1

mutual

theorem valueEq_symm : ∀ (a b : Value), valueWF a = true → valueWF b = true →
    valueEq a b = true → valueEq b a = true
  | .str x, b, _, _, h => by
    cases b <;> simp only [valueEq, beq_iff_eq] at h ⊢ <;> first | exact h | exact h.symm
  | .num x, b, _, _, h => by
    cases b <;> simp only [valueEq, beq_iff_eq] at h ⊢ <;> first | exact h | exact h.symm
  | .bool x, b, _, _, h => by
    cases b <;> simp only [valueEq, beq_iff_eq] at h ⊢ <;> first | exact h | exact h.symm
  | .unknown, b, _, _, h => by
    cases b <;> simp only [valueEq] at h ⊢ <;> exact h
  | .vnull, b, _, _, h => by
    cases b <;> simp only [valueEq] at h ⊢ <;> exact h
  | .vlist xs, b, ha, hb, h => by
    cases b <;> simp only [valueEq] at h ⊢
    case vlist ys =>
      exact valueListEq_symm xs ys (by simpa [valueWF] using ha) (by simpa [valueWF] using hb) h
    all_goals exact h
  | .vmap xs, b, ha, hb, h => by
    cases b <;> simp only [valueEq] at h ⊢
    case vmap ys =>
      simp only [valueWF, Bool.and_eq_true] at ha hb
      simp only [Bool.and_eq_true] at h ⊢
      obtain ⟨hsub, hkeys⟩ := h
      constructor
      · refine valueMapSub_of_forall fun kv hkv => ?_
        obtain ⟨v, hv⟩ := Option.isSome_iff_exists.mp (keysIn_iff.mp hkeys kv hkv)
        have hvmem : (kv.1, v) ∈ xs := mem_of_lookupAL_eq_some hv
        obtain ⟨w, hw, hew⟩ := valueMapSub_mem hsub hvmem
        have hw2 : lookupAL kv.1 ys = some kv.2 :=
          lookupAL_eq_some_of_mem_nodup hb.1 hkv
        rw [hw] at hw2
        obtain rfl : w = kv.2 := by simpa using hw2
        refine ⟨v, hv, ?_⟩
        have hvwf : valueWF v = true := valueFieldsWF_mem ha.2 hvmem
        have hkwf : valueWF kv.2 = true := valueFieldsWF_mem hb.2 hkv
        have hlt : sizeOf v < sizeOf (Value.vmap xs) := by
          have h1 := List.sizeOf_lt_of_mem hvmem
          have h2 : sizeOf (kv.1, v) = 1 + sizeOf kv.1 + sizeOf v := by simp
          have h3 : sizeOf (Value.vmap xs) = 1 + sizeOf xs := by simp
          omega
        exact valueEq_symm v kv.2 hvwf hkwf hew
      · refine keysIn_iff.mpr fun kv hkv => ?_
        obtain ⟨w, hw, _⟩ := valueMapSub_mem hsub hkv
        exact hw ▸ rfl
    all_goals exact h
termination_by a _ _ _ _ => sizeOf a
decreasing_by
  all_goals first
    | exact hlt
    | decreasing_tactic

theorem valueListEq_symm : ∀ (xs ys : List Value), valueListWF xs = true →
    valueListWF ys = true → valueListEq xs ys = true → valueListEq ys xs = true
  | [], ys, _, _, h => by
    cases ys <;> simp_all [valueListEq]
  | x :: xs, ys, ha, hb, h => by
    cases ys with
    | nil => simp [valueListEq] at h
    | cons y ys =>
      simp only [valueListEq, Bool.and_eq_true] at h ⊢
      simp only [valueListWF, Bool.and_eq_true] at ha hb
      exact ⟨valueEq_symm x y ha.1 hb.1 h.1, valueListEq_symm xs ys ha.2 hb.2 h.2⟩
termination_by xs _ _ _ _ => sizeOf xs
decreasing_by
  all_goals decreasing_tactic

end

/-! ## Reflexivity and symmetry of the deep-equality functions on blocks -/

theorem valMapEq_refl {a : List (String × Value)} (hn : nodupKeysB a = true)
    (hw : valueFieldsWF a = true) : valMapEq a a = true := by
  simp only [valMapEq, Bool.and_eq_true]
  exact ⟨valueMapSub_refl a a hn hw fun kv hkv => hkv, keysIn_self a⟩

theorem valMapEq_symm {a b : List (String × Value)} (hwa : valueFieldsWF a = true)
    (hnb : nodupKeysB b = true) (hwb : valueFieldsWF b = true)
    (h : valMapEq a b = true) : valMapEq b a = true := by
  simp only [valMapEq, Bool.and_eq_true] at h ⊢
  obtain ⟨hsub, hkeys⟩ := h
  constructor
  · refine valueMapSub_of_forall fun kv hkv => ?_
    obtain ⟨v, hv⟩ := Option.isSome_iff_exists.mp (keysIn_iff.mp hkeys kv hkv)
    have hvmem : (kv.1, v) ∈ a := mem_of_lookupAL_eq_some hv
    obtain ⟨w, hw, hew⟩ := valueMapSub_mem hsub hvmem
    have hw2 : lookupAL kv.1 b = some kv.2 := lookupAL_eq_some_of_mem_nodup hnb hkv
    rw [hw] at hw2
    obtain rfl : w = kv.2 := by simpa using hw2
    exact ⟨v, hv,
      valueEq_symm v kv.2 (valueFieldsWF_mem hwa hvmem) (valueFieldsWF_mem hwb hkv) hew⟩
  · refine keysIn_iff.mpr fun kv hkv => ?_
    obtain ⟨w, hw, _⟩ := valueMapSub_mem hsub hkv
    exact hw ▸ rfl

theorem blockEntriesWF_mem {l : List (String × Block)} {k : String} {v : Block}
    (h : blockEntriesWF l = true) (hm : (k, v) ∈ l) : blockWF v = true := by
  induction l with
  | nil => simp at hm
  | cons hd tl ih =>
    obtain ⟨k0, v0⟩ := hd
    simp only [blockEntriesWF, Bool.and_eq_true] at h
    rcases List.mem_cons.mp hm with hm1 | hm1
    · obtain ⟨rfl, rfl⟩ : k0 = k ∧ v0 = v := by simpa using hm1.symm
      exact h.1
    · exact ih h.2 hm1

theorem blockMapSub_mem {l1 l2 : List (String × Block)} {k : String} {v : Block}
    (h : blockMapSub l1 l2 = true) (hm : (k, v) ∈ l1) :
    ∃ w, lookupAL k l2 = some w ∧ blockEq v w = true := by
  induction l1 with
  | nil => simp at hm
  | cons hd tl ih =>
    obtain ⟨k0, v0⟩ := hd
    simp only [blockMapSub, Bool.and_eq_true] at h
    obtain ⟨h1, h2⟩ := h
    rcases List.mem_cons.mp hm with hm1 | hm1
    · obtain ⟨h3, h4⟩ : k0 = k ∧ v0 = v := by simpa using hm1.symm
      rw [← h3, ← h4]
      cases hl : lookupAL k0 l2 with
      | none => rw [hl] at h1; simp at h1
      | some w => rw [hl] at h1; exact ⟨w, rfl, h1⟩
    · exact ih h2 hm1

theorem blockMapSub_of_forall {l1 l2 : List (String × Block)}
    (h : ∀ kv ∈ l1, ∃ w, lookupAL kv.1 l2 = some w ∧ blockEq kv.2 w = true) :
    blockMapSub l1 l2 = true := by
  induction l1 with
  | nil => simp [blockMapSub]
  | cons hd tl ih =>
    obtain ⟨k0, v0⟩ := hd
    simp only [blockMapSub, Bool.and_eq_true]
    obtain ⟨w, hw, hew⟩ := h (k0, v0) (List.mem_cons_self _ _)
    constructor
    · rw [hw]
      exact hew
    · exact ih fun kv hkv => h kv (List.mem_cons_of_mem _ hkv)

theorem and_eq_true_elim {a b : Bool} (h : (a && b) = true) : a = true ∧ b = true := by
  simp only [Bool.and_eq_true] at h
  exact h

theorem and_eq_true_intro {a b : Bool} (h1 : a = true) (h2 : b = true) : (a && b) = true := by
  simp [h1, h2]

mutual

theorem blockEq_refl : ∀ (b : Block), blockWF b = true → blockEq b b = true
  | .mk attrs none, h => by
    rw [blockWF.eq_def] at h
    rw [blockEq.eq_def]
    simp only [Bool.and_eq_true] at h
    refine and_eq_true_intro ?_ (by simp)
    cases attrs with
    | none => simp [optEqWith]
    | some a =>
      have ha := and_eq_true_elim (show (nodupKeysB a && valueFieldsWF a) = true from h.1)
      simp only [optEqWith]
      exact valMapEq_refl ha.1 ha.2
  | .mk attrs (some bl), h => by
    rw [blockWF.eq_def] at h
    rw [blockEq.eq_def]
    simp only [Bool.and_eq_true] at h
    refine and_eq_true_intro ?_ ?_
    · cases attrs with
      | none => simp [optEqWith]
      | some a =>
        have ha := and_eq_true_elim (show (nodupKeysB a && valueFieldsWF a) = true from h.1)
        simp only [optEqWith]
        exact valMapEq_refl ha.1 ha.2
    · have hbl := h.2
      show (blockMapSub bl bl && keysIn bl bl) = true
      refine and_eq_true_intro ?_ (keysIn_self bl)
      exact blockMapSub_refl bl bl hbl.1 hbl.2 fun kv hkv => hkv
termination_by b _ => sizeOf b
decreasing_by
  all_goals decreasing_tactic

theorem blockMapSub_refl : ∀ (l fs : List (String × Block)), nodupKeysB fs = true →
    blockEntriesWF l = true → (∀ kv ∈ l, kv ∈ fs) → blockMapSub l fs = true
  | [], _, _, _, _ => by simp [blockMapSub]
  | (k, v) :: rest, fs, hn, hwf, hsub => by
    simp only [blockEntriesWF, Bool.and_eq_true] at hwf
    simp only [blockMapSub, Bool.and_eq_true]
    constructor
    · rw [lookupAL_eq_some_of_mem_nodup hn (hsub (k, v) (List.mem_cons_self _ _))]
      exact blockEq_refl v hwf.1
    · exact blockMapSub_refl rest fs hn hwf.2 fun kv hkv => hsub kv (List.mem_cons_of_mem _ hkv)
termination_by l _ _ _ _ => sizeOf l
decreasing_by
  all_goals decreasing_tactic

end

theorem blockEq_symm_attrs {a1 a2 : Option (List (String × Value))}
    (hx1 : (match a1 with
            | none => true
            | some a => nodupKeysB a && valueFieldsWF a) = true)
    (hy1 : (match a2 with
            | none => true
            | some a => nodupKeysB a && valueFieldsWF a) = true)
    (ha : optEqWith valMapEq a1 a2 = true) : optEqWith valMapEq a2 a1 = true := by
  cases a1 with
  | none =>
    cases a2 with
    | none => simp [optEqWith]
    | some a => simp [optEqWith] at ha
  | some a =>
    cases a2 with
    | none => simp [optEqWith] at ha
    | some b =>
      simp only [optEqWith] at ha ⊢
      have hx2 := and_eq_true_elim (show (nodupKeysB a && valueFieldsWF a) = true from hx1)
      have hy2 := and_eq_true_elim (show (nodupKeysB b && valueFieldsWF b) = true from hy1)
      exact valMapEq_symm hx2.2 hy2.1 hy2.2 ha

theorem blockEq_symm : ∀ (x y : Block), blockWF x = true → blockWF y = true →
    blockEq x y = true → blockEq y x = true
  | .mk a1 none, .mk a2 none, hx, hy, h => by
    rw [blockWF.eq_def] at hx hy
    rw [blockEq.eq_def] at h
    rw [blockEq.eq_def]
    simp only [Bool.and_eq_true] at hx hy h
    exact and_eq_true_intro (blockEq_symm_attrs hx.1 hy.1 h.1) (by simp)
  | .mk a1 none, .mk a2 (some l2), _, _, h => by
    rw [blockEq.eq_def] at h
    simp at h
  | .mk a1 (some l1), .mk a2 none, _, _, h => by
    rw [blockEq.eq_def] at h
    simp at h
  | .mk a1 (some l1), .mk a2 (some l2), hx, hy, h => by
    rw [blockWF.eq_def] at hx hy
    rw [blockEq.eq_def] at h
    rw [blockEq.eq_def]
    simp only [Bool.and_eq_true] at hx hy h
    obtain ⟨ha, hb⟩ := h
    refine and_eq_true_intro (blockEq_symm_attrs hx.1 hy.1 ha) ?_
    obtain ⟨hsub, hkeys⟩ := hb
    have hx2 := hx.2
    have hy2 := hy.2
    show (blockMapSub l2 l1 && keysIn l1 l2) = true
    refine and_eq_true_intro ?_ ?_
    · refine blockMapSub_of_forall fun kv hkv => ?_
      obtain ⟨v, hv⟩ := Option.isSome_iff_exists.mp (keysIn_iff.mp hkeys kv hkv)
      have hvmem : (kv.1, v) ∈ l1 := mem_of_lookupAL_eq_some hv
      obtain ⟨w, hw, hew⟩ := blockMapSub_mem hsub hvmem
      have hw2 : lookupAL kv.1 l2 = some kv.2 := lookupAL_eq_some_of_mem_nodup hy2.1 hkv
      rw [hw] at hw2
      obtain rfl : w = kv.2 := by simpa using hw2
      have hvwf : blockWF v = true := blockEntriesWF_mem hx2.2 hvmem
      have hkwf : blockWF kv.2 = true := blockEntriesWF_mem hy2.2 hkv
      have hlt : sizeOf v < 1 + sizeOf a1 + (1 + sizeOf l1) := by
        have hm1 := List.sizeOf_lt_of_mem hvmem
        have hm2 : sizeOf (kv.1, v) = 1 + sizeOf kv.1 + sizeOf v := by simp
        omega
      exact ⟨v, hv, blockEq_symm v kv.2 hvwf hkwf hew⟩
    · refine keysIn_iff.mpr fun kv hkv => ?_
      obtain ⟨w, hw, _⟩ := blockMapSub_mem hsub hkv
      exact hw ▸ rfl
termination_by x _ _ _ _ => sizeOf x
decreasing_by
  all_goals (simp_wf; omega)

/-! ## Resource-level equality and well-formedness lemmas -/

theorem blockWF_mk {x : Option (List (String × Value))} {y : Option (List (String × Block))} :
    blockWF (Block.mk x y) = true ↔
      ((∀ a, x = some a → nodupKeysB a = true ∧ valueFieldsWF a = true) ∧
       (∀ bl, y = some bl → nodupKeysB bl = true ∧ blockEntriesWF bl = true)) := by
  cases x <;> cases y <;> rw [blockWF.eq_def] <;> simp

theorem resourceWF_parts {n : String} {x : Option (List (String × Value))}
    {y : Option (List (String × Block))} :
    resourceWF ⟨n, x, y⟩ = true ↔
      ((∀ a, x = some a → nodupKeysB a = true ∧ valueFieldsWF a = true) ∧
       (∀ bl, y = some bl → nodupKeysB bl = true ∧ blockEntriesWF bl = true)) := by
  cases x <;> cases y <;> simp [resourceWF]

theorem blockMapEq_symm {l1 l2 : List (String × Block)}
    (hw1 : blockEntriesWF l1 = true) (hn2 : nodupKeysB l2 = true)
    (hw2 : blockEntriesWF l2 = true) (h : blockMapEq l1 l2 = true) :
    blockMapEq l2 l1 = true := by
  simp only [blockMapEq, Bool.and_eq_true] at h ⊢
  obtain ⟨hsub, hkeys⟩ := h
  constructor
  · refine blockMapSub_of_forall fun kv hkv => ?_
    obtain ⟨v, hv⟩ := Option.isSome_iff_exists.mp (keysIn_iff.mp hkeys kv hkv)
    have hvmem : (kv.1, v) ∈ l1 := mem_of_lookupAL_eq_some hv
    obtain ⟨w, hw, hew⟩ := blockMapSub_mem hsub hvmem
    have hw3 : lookupAL kv.1 l2 = some kv.2 := lookupAL_eq_some_of_mem_nodup hn2 hkv
    rw [hw] at hw3
    obtain rfl : w = kv.2 := by simpa using hw3
    exact ⟨v, hv, blockEq_symm v kv.2 (blockEntriesWF_mem hw1 hvmem)
      (blockEntriesWF_mem hw2 hkv) hew⟩
  · refine keysIn_iff.mpr fun kv hkv => ?_
    obtain ⟨w, hw, _⟩ := blockMapSub_mem hsub hkv
    exact hw ▸ rfl

theorem resourceEq_refl {r : Resource} (h : resourceWF r = true) : resourceEq r r = true := by
  obtain ⟨n, attrs, blocks⟩ := r
  rw [resourceWF_parts] at h
  simp only [resourceEq]
  refine and_eq_true_intro (and_eq_true_intro (by simp) ?_) ?_
  · cases attrs with
    | none => simp [optEqWith]
    | some a =>
      simp only [optEqWith]
      exact valMapEq_refl (h.1 a rfl).1 (h.1 a rfl).2
  · cases blocks with
    | none => simp [optEqWith]
    | some bl =>
      simp only [optEqWith, blockMapEq]
      exact and_eq_true_intro
        (blockMapSub_refl bl bl (h.2 bl rfl).1 (h.2 bl rfl).2 fun kv hkv => hkv)
        (keysIn_self bl)

theorem resourceEq_symm {r1 r2 : Resource} (h1 : resourceWF r1 = true)
    (h2 : resourceWF r2 = true) (h : resourceEq r1 r2 = true) : resourceEq r2 r1 = true := by
  obtain ⟨n1, a1, b1⟩ := r1
  obtain ⟨n2, a2, b2⟩ := r2
  rw [resourceWF_parts] at h1 h2
  simp only [resourceEq, Bool.and_eq_true] at h ⊢
  obtain ⟨⟨hn, ha⟩, hb⟩ := h
  refine ⟨⟨?_, ?_⟩, ?_⟩
  · simp only [beq_iff_eq] at hn ⊢
    exact hn.symm
  · cases a1 with
    | none =>
      cases a2 with
      | none => simp [optEqWith]
      | some a => simp [optEqWith] at ha
    | some a =>
      cases a2 with
      | none => simp [optEqWith] at ha
      | some b =>
        simp only [optEqWith] at ha ⊢
        exact valMapEq_symm (h1.1 a rfl).2 (h2.1 b rfl).1 (h2.1 b rfl).2 ha
  · cases b1 with
    | none =>
      cases b2 with
      | none => simp [optEqWith]
      | some l2 => simp [optEqWith] at hb
    | some l1 =>
      cases b2 with
      | none => simp [optEqWith] at hb
      | some l2 =>
        simp only [optEqWith] at hb ⊢
        exact blockMapEq_symm (h1.2 l1 rfl).2 (h2.2 l2 rfl).1 (h2.2 l2 rfl).2 hb

/-! ## The decoded output is well-formed -/

theorem evalExpr_wf {e : HExpr} (h : exprWF e = true) : valueWF (evalExpr e).1 = true := by
  cases e with
  | lit v => simpa [exprWF, evalExpr] using h
  | unresolvable => rfl

theorem valueFieldsWF_iff {l : List (String × Value)} :
    valueFieldsWF l = true ↔ ∀ kv ∈ l, valueWF kv.2 = true := by
  induction l with
  | nil => simp [valueFieldsWF]
  | cons hd tl ih =>
    obtain ⟨k0, v0⟩ := hd
    simp [valueFieldsWF, Bool.and_eq_true, ih]

theorem blockEntriesWF_iff {l : List (String × Block)} :
    blockEntriesWF l = true ↔ ∀ kv ∈ l, blockWF kv.2 = true := by
  induction l with
  | nil => simp [blockEntriesWF]
  | cons hd tl ih =>
    obtain ⟨k0, v0⟩ := hd
    simp [blockEntriesWF, Bool.and_eq_true, ih]

theorem decodeAttributesAux_wf {attrs : List HAttr} {acc : List (String × Value)}
    (hattrs : (attrs.all fun a => exprWF a.expr) = true)
    (hacc1 : nodupKeysB acc = true) (hacc2 : valueFieldsWF acc = true) :
    nodupKeysB (decodeAttributesAux attrs acc) = true ∧
      valueFieldsWF (decodeAttributesAux attrs acc) = true := by
  induction attrs generalizing acc with
  | nil => exact ⟨hacc1, hacc2⟩
  | cons a rest ih =>
    simp only [List.all_cons, Bool.and_eq_true] at hattrs
    refine ih hattrs.2 (nodupKeysB_insertAL hacc1) ?_
    refine valueFieldsWF_iff.mpr fun kv hkv => ?_
    rcases mem_insertAL hkv with h1 | h1
    · rw [h1]
      exact evalExpr_wf hattrs.1
    · exact valueFieldsWF_iff.mp hacc2 kv h1

theorem decodeAttributes_wf {attrs : List HAttr}
    (hattrs : (attrs.all fun a => exprWF a.expr) = true) :
    nodupKeysB (decodeAttributes attrs) = true ∧
      valueFieldsWF (decodeAttributes attrs) = true :=
  decodeAttributesAux_wf hattrs rfl rfl

theorem blocksWFDoc_body {bs : List HBlock} {b : HBlock}
    (h : blocksWFDoc bs = true) (hm : b ∈ bs) : bodyWF b.body = true := by
  induction bs with
  | nil => simp at hm
  | cons hd tl ih =>
    obtain ⟨ty, labels, body⟩ := hd
    simp only [blocksWFDoc, Bool.and_eq_true] at h
    rcases List.mem_cons.mp hm with h1 | h1
    · rw [h1]
      exact h.1
    · exact ih h.2 h1

mutual

theorem decodeBody_wf : ∀ (body : HBody), bodyWF body = true → blockWF (decodeBody body) = true
  | .mk attrs blocks, h => by
    have h2 : (attrs.all fun a => exprWF a.expr) = true ∧ blocksWFDoc blocks = true := by
      simpa [bodyWF, Bool.and_eq_true] using h
    rw [decodeBody]
    rw [blockWF_mk]
    constructor
    · intro a ha
      by_cases hlen : attrs.length > 0
      · rw [if_pos hlen] at ha
        obtain rfl : decodeAttributes attrs = a := by simpa using ha
        exact decodeAttributes_wf h2.1
      · rw [if_neg hlen] at ha
        simp at ha
    · intro bl hbl
      by_cases hlen : blocks.length > 0
      · rw [if_pos hlen] at hbl
        obtain rfl : decodeBlocksAux blocks [] = bl := by simpa using hbl
        exact decodeBlocksAux_wf blocks [] h2.2 rfl rfl
      · rw [if_neg hlen] at hbl
        simp at hbl

theorem decodeBlocksAux_wf : ∀ (blocks : List HBlock) (acc : List (String × Block)),
    blocksWFDoc blocks = true → nodupKeysB acc = true → blockEntriesWF acc = true →
    nodupKeysB (decodeBlocksAux blocks acc) = true ∧
      blockEntriesWF (decodeBlocksAux blocks acc) = true
  | [], acc, _, hacc1, hacc2 => ⟨hacc1, hacc2⟩
  | .mk ty labels body :: rest, acc, hdoc, hacc1, hacc2 => by
    have h2 : bodyWF body = true ∧ blocksWFDoc rest = true := by
      simpa [blocksWFDoc, Bool.and_eq_true] using hdoc
    rw [decodeBlocksAux]
    refine decodeBlocksAux_wf rest _ h2.2 (nodupKeysB_insertAL hacc1) ?_
    refine blockEntriesWF_iff.mpr fun kv hkv => ?_
    rcases mem_insertAL hkv with h1 | h1
    · rw [h1]
      exact decodeBody_wf body h2.1
    · exact blockEntriesWF_iff.mp hacc2 kv h1

end

/-! ## The parse result is well-formed -/

theorem decodeResource_wf {b : HBlock} {r : Resource} (hb : bodyWF b.body = true)
    (h : decodeResource b = some r) : resourceWF r = true := by
  simp only [decodeResource] at h
  cases hn : resourceName b with
  | none => rw [hn] at h; simp at h
  | some n =>
    rw [hn] at h
    simp only [Option.some.injEq] at h
    have hwf := decodeBody_wf b.body hb
    cases hd : decodeBody b.body with
    | mk x y =>
      rw [hd] at h hwf
      rw [← h]
      simp only [Block.attributes, Block.nested]
      rw [resourceWF_parts]
      exact blockWF_mk.mp hwf

theorem parseAux_wf {bs : List HBlock} {acc c : List (String × Resource)}
    (hdoc : blocksWFDoc bs = true) (hacc1 : nodupKeysB acc = true)
    (hacc2 : (acc.all fun kv => resourceWF kv.2) = true)
    (h : parseAux bs acc = some c) :
    nodupKeysB c = true ∧ (c.all fun kv => resourceWF kv.2) = true := by
  induction bs generalizing acc with
  | nil =>
    simp only [parseAux, Option.some.injEq] at h
    rw [← h]
    exact ⟨hacc1, hacc2⟩
  | cons b rest ih =>
    have h2 : bodyWF b.body = true ∧ blocksWFDoc rest = true := by
      obtain ⟨ty, labels, body⟩ := b
      simpa [blocksWFDoc, Bool.and_eq_true] using hdoc
    simp only [parseAux] at h
    by_cases hsel : selected b = true
    · rw [if_pos hsel] at h
      cases hd : decodeResource b with
      | none => rw [hd] at h; simp at h
      | some r =>
        rw [hd] at h
        refine ih h2.2 (nodupKeysB_insertAL hacc1) ?_ h
        refine List.all_eq_true.mpr fun kv hkv => ?_
        rcases mem_insertAL hkv with h1 | h1
        · rw [h1]
          exact decodeResource_wf h2.1 hd
        · exact List.all_eq_true.mp hacc2 kv h1
    · rw [if_neg hsel] at h
      exact ih h2.2 hacc1 hacc2 h

theorem parse_wf {bs : List HBlock} {c : List (String × Resource)}
    (hdoc : docWF bs = true) (h : parse bs = some c) :
    nodupKeysB c = true ∧ (c.all fun kv => resourceWF kv.2) = true := by
  refine parseAux_wf hdoc ?_ ?_ h <;> rfl

/-! ## The diff of a collection with itself is empty -/

theorem diff_self {c : List (String × Resource)} (h1 : nodupKeysB c = true)
    (h2 : (c.all fun kv => resourceWF kv.2) = true) : diff c c = [] := by
  simp only [diff]
  rw [List.append_eq_nil]
  constructor
  · rw [List.map_eq_nil_iff]
    rw [List.filter_eq_nil_iff]
    intro kv hkv
    have hl : lookupAL kv.1 c = some kv.2 := lookupAL_eq_some_of_mem_nodup h1 hkv
    simp only [resourceChanged, hl, Bool.not_eq_true]
    rw [resourceEq_refl (List.all_eq_true.mp h2 kv hkv)]
    simp
  · rw [List.map_eq_nil_iff]
    rw [List.filter_eq_nil_iff]
    intro kv hkv
    have hl : lookupAL kv.1 c = some kv.2 := lookupAL_eq_some_of_mem_nodup h1 hkv
    simp [hl]

/-! ## Last-write-wins characterizations of the decode folds -/

theorem decodeResource_name {b : HBlock} {r : Resource} (h : decodeResource b = some r) :
    resourceName b = some r.name := by
  simp only [decodeResource] at h
  cases hn : resourceName b with
  | none => rw [hn] at h; simp at h
  | some n =>
    rw [hn] at h
    simp only [Option.some.injEq] at h
    rw [← h]

theorem decodeResource_isSome {b : HBlock} :
    (decodeResource b).isSome = (resourceName b).isSome := by
  simp only [decodeResource]
  cases resourceName b <;> simp

theorem decodeAttributesAux_lookup (attrs : List HAttr) (acc : List (String × Value))
    (k : String) :
    lookupAL k (decodeAttributesAux attrs acc) =
      match attrs.reverse.find? (fun a => a.name == k) with
      | some a => some (evalExpr a.expr).1
      | none => lookupAL k acc := by
  induction attrs generalizing acc with
  | nil => simp [decodeAttributesAux]
  | cons a rest ih =>
    rw [decodeAttributesAux]
    rw [ih]
    rw [List.reverse_cons]
    rw [List.find?_append]
    cases hf : rest.reverse.find? (fun x => x.name == k) with
    | some a2 => simp [hf]
    | none =>
      simp only [hf, Option.none_or]
      rw [lookupAL_insertAL]
      by_cases hk : (a.name == k) = true
      · simp [List.find?, hk]
      · simp only [Bool.not_eq_true] at hk
        simp [List.find?, hk]

theorem decodeBlocksAux_lookup (blocks : List HBlock) (acc : List (String × Block))
    (k : String) :
    lookupAL k (decodeBlocksAux blocks acc) =
      match blocks.reverse.find? (fun b => b.btype == k) with
      | some b => some (decodeBody b.body)
      | none => lookupAL k acc := by
  induction blocks generalizing acc with
  | nil => simp [decodeBlocksAux]
  | cons b rest ih =>
    obtain ⟨ty, labels, body⟩ := b
    rw [decodeBlocksAux]
    rw [ih]
    rw [List.reverse_cons]
    rw [List.find?_append]
    cases hf : rest.reverse.find? (fun x => x.btype == k) with
    | some b2 => simp [hf]
    | none =>
      simp only [hf, Option.none_or]
      rw [lookupAL_insertAL]
      by_cases hk : (ty == k) = true
      · simp [List.find?, HBlock.btype, HBlock.body, hk]
      · simp only [Bool.not_eq_true] at hk
        simp [List.find?, HBlock.btype, HBlock.body, hk]

theorem parseAux_lookup {bs : List HBlock} {acc c : List (String × Resource)}
    (h : parseAux bs acc = some c) (k : String) :
    lookupAL k c =
      match (bs.filter selected).reverse.find? (fun b => resourceName b == some k) with
      | some b => decodeResource b
      | none => lookupAL k acc := by
  induction bs generalizing acc with
  | nil =>
    simp only [parseAux, Option.some.injEq] at h
    rw [← h]
    simp
  | cons b rest ih =>
    simp only [parseAux] at h
    by_cases hsel : selected b = true
    · rw [if_pos hsel] at h
      cases hd : decodeResource b with
      | none => rw [hd] at h; simp at h
      | some r =>
        rw [hd] at h
        rw [ih h]
        rw [List.filter_cons_of_pos hsel]
        rw [List.reverse_cons]
        rw [List.find?_append]
        cases hf : (rest.filter selected).reverse.find? (fun x => resourceName x == some k) with
        | some b2 => simp [hf]
        | none =>
          simp only [hf, Option.none_or]
          rw [lookupAL_insertAL]
          have hname : resourceName b = some r.name := decodeResource_name hd
          by_cases hk : r.name = k
          · subst hk
            simp [List.find?, hname, hd]
          · have hk2 : (r.name == k) = false := beq_eq_false_iff_ne.mpr hk
            have hk3 : (resourceName b == some k) = false := by
              rw [hname]
              simpa using hk
            simp [List.find?, hk2, hk3]
    · rw [if_neg hsel] at h
      rw [ih h]
      rw [List.filter_cons_of_neg (by simpa using hsel)]

theorem parse_lookup {bs : List HBlock} {c : List (String × Resource)}
    (h : parse bs = some c) (k : String) :
    lookupAL k c =
      match (bs.filter selected).reverse.find? (fun b => resourceName b == some k) with
      | some b => decodeResource b
      | none => none := by
  have h2 : parseAux bs [] = some c := h
  rw [parseAux_lookup h2]
  cases (bs.filter selected).reverse.find? (fun b => resourceName b == some k) <;>
    simp [lookupAL]

/-! ## Parsing fails exactly on label-indexing panics -/

theorem parseAux_isSome_iff {bs : List HBlock} {acc : List (String × Resource)} :
    (parseAux bs acc).isSome = true ↔
      ∀ b ∈ bs, selected b = true → (resourceName b).isSome = true := by
  induction bs generalizing acc with
  | nil => simp [parseAux]
  | cons b rest ih =>
    simp only [parseAux]
    by_cases hsel : selected b = true
    · rw [if_pos hsel]
      cases hd : decodeResource b with
      | none =>
        have hn : (resourceName b).isSome = false := by
          rw [← decodeResource_isSome, hd]
          rfl
        simp [hsel, hn]
      | some r =>
        have hn : (resourceName b).isSome = true := by
          rw [← decodeResource_isSome, hd]
          rfl
        rw [ih]
        simp [hsel, hn]
    · rw [if_neg hsel]
      rw [ih]
      simp [hsel]

theorem parse_isSome_iff {bs : List HBlock} :
    (parse bs).isSome = true ↔
      ∀ b ∈ bs, selected b = true → (resourceName b).isSome = true :=
  parseAux_isSome_iff

/-! ## The decode functions never read the labels of nested blocks -/

theorem stripNested_length : ∀ (blocks : List HBlock),
    (stripNested blocks).length = blocks.length
  | [] => rfl
  | .mk ty labels body :: rest => by
    rw [stripNested]
    simp [stripNested_length rest]

mutual

theorem decodeBody_strip : ∀ (body : HBody), decodeBody (stripBody body) = decodeBody body
  | .mk attrs blocks => by
    rw [stripBody]
    rw [decodeBody, decodeBody]
    rw [stripNested_length]
    by_cases h : blocks.length > 0
    · rw [if_pos h, if_pos h]
      rw [decodeBlocksAux_strip blocks []]
    · rw [if_neg h, if_neg h]

theorem decodeBlocksAux_strip : ∀ (blocks : List HBlock) (acc : List (String × Block)),
    decodeBlocksAux (stripNested blocks) acc = decodeBlocksAux blocks acc
  | [], _ => rfl
  | .mk ty labels body :: rest, acc => by
    rw [stripNested]
    rw [decodeBlocksAux, decodeBlocksAux]
    rw [decodeBody_strip body]
    exact decodeBlocksAux_strip rest _

end

theorem decodeResource_strip (b : HBlock) :
    decodeResource (HBlock.mk b.btype b.labels (stripBody b.body)) = decodeResource b := by
  obtain ⟨ty, labels, body⟩ := b
  simp only [HBlock.btype, HBlock.labels, HBlock.body]
  simp only [decodeResource, resourceName, HBlock.btype, HBlock.labels, HBlock.body]
  rw [decodeBody_strip]

theorem parseAux_strip : ∀ (bs : List HBlock) (acc : List (String × Resource)),
    parseAux (stripDoc bs) acc = parseAux bs acc
  | [], _ => rfl
  | b :: rest, acc => by
    have hsel : selected (HBlock.mk b.btype b.labels (stripBody b.body)) = selected b := by
      obtain ⟨ty, labels, body⟩ := b
      simp [selected, HBlock.btype]
    rw [stripDoc]
    simp only [parseAux]
    rw [hsel, decodeResource_strip b]
    by_cases hs : selected b = true
    · rw [if_pos hs, if_pos hs]
      cases decodeResource b with
      | none => rfl
      | some r => exact parseAux_strip rest _
    · rw [if_neg hs, if_neg hs]
      exact parseAux_strip rest acc

theorem parse_strip (bs : List HBlock) : parse (stripDoc bs) = parse bs :=
  parseAux_strip bs []

/-! ## Rendering lemmas -/

theorem string_join_cons (a : String) (l : List String) :
    String.join (a :: l) = a ++ String.join l := by
  simp [String.join_eq]
  rfl

theorem render_foldl (l : List String) (init : String) :
    l.foldl (fun s r => s ++ ("-target " ++ r ++ " ")) init =
      init ++ String.join (l.map fun n => "-target " ++ n ++ " ") := by
  induction l generalizing init with
  | nil =>
    simp only [List.foldl_nil, List.map_nil]
    rw [show String.join [] = "" from rfl]
    simp
  | cons a l ih =>
    rw [List.foldl_cons, ih, List.map_cons, string_join_cons]
    rw [String.append_assoc]

/-! ## Membership characterization of the diff -/

theorem diff_mem_iff {A B : List (String × Resource)} (hA : nodupKeysB A = true)
    (hB : nodupKeysB B = true) (n : String) :
    n ∈ diff A B ↔
      ((lookupAL n A).isSome = true ∧ lookupAL n B = none) ∨
      ((lookupAL n B).isSome = true ∧ lookupAL n A = none) ∨
      (∃ r1 r2, lookupAL n A = some r1 ∧ lookupAL n B = some r2 ∧
        resourceEq r1 r2 = false) := by
  simp only [diff, List.mem_append, List.mem_map, List.mem_filter]
  constructor
  · rintro (⟨kv, ⟨hmem, hch⟩, hfst⟩ | ⟨kv, ⟨hmem, hnone⟩, hfst⟩)
    · obtain ⟨k, r1⟩ := kv
      obtain rfl : n = k := hfst.symm
      have hlA : lookupAL n A = some r1 := lookupAL_eq_some_of_mem_nodup hA hmem
      simp only [resourceChanged] at hch
      cases hlB : lookupAL n B with
      | none => exact Or.inl ⟨by rw [hlA]; rfl, rfl⟩
      | some r2 =>
        rw [hlB] at hch
        simp only [Bool.not_eq_true'] at hch
        exact Or.inr (Or.inr ⟨r1, r2, hlA, rfl, hch⟩)
    · obtain ⟨k, r2⟩ := kv
      obtain rfl : n = k := hfst.symm
      have hlB : lookupAL n B = some r2 := lookupAL_eq_some_of_mem_nodup hB hmem
      simp only [Option.isNone_iff_eq_none] at hnone
      exact Or.inr (Or.inl ⟨by rw [hlB]; rfl, hnone⟩)
  · rintro (⟨hsome, hnone⟩ | ⟨hsome, hnone⟩ | ⟨r1, r2, hl1, hl2, hne⟩)
    · obtain ⟨r1, hl1⟩ := Option.isSome_iff_exists.mp hsome
      refine Or.inl ⟨(n, r1), ⟨mem_of_lookupAL_eq_some hl1, ?_⟩, rfl⟩
      simp [resourceChanged, hnone]
    · obtain ⟨r2, hl2⟩ := Option.isSome_iff_exists.mp hsome
      refine Or.inr ⟨(n, r2), ⟨mem_of_lookupAL_eq_some hl2, ?_⟩, rfl⟩
      simp [hnone]
    · refine Or.inl ⟨(n, r1), ⟨mem_of_lookupAL_eq_some hl1, ?_⟩, rfl⟩
      simp [resourceChanged, hl2, hne]

/-! ## The diff result has no duplicate names -/

theorem nodupKeysB_iff_nodup_map {α : Type} {l : List (String × α)} :
    nodupKeysB l = true ↔ (l.map Prod.fst).Nodup := by
  induction l with
  | nil => simp [nodupKeysB]
  | cons hd tl ih =>
    obtain ⟨k, v⟩ := hd
    simp only [nodupKeysB, Bool.and_eq_true, Bool.not_eq_true', List.any_eq_false,
      List.map_cons, List.nodup_cons, ih]
    constructor
    · rintro ⟨h1, h2⟩
      refine ⟨?_, h2⟩
      intro hmem
      obtain ⟨kv, hkv, hfst⟩ := List.mem_map.mp hmem
      have := h1 kv hkv
      rw [hfst] at this
      simp at this
    · rintro ⟨h1, h2⟩
      refine ⟨?_, h2⟩
      intro kv hkv
      simp only [beq_iff_eq]
      intro hk
      exact h1 (List.mem_map.mpr ⟨kv, hkv, hk⟩)

theorem diff_nodup {A B : List (String × Resource)} (hA : nodupKeysB A = true)
    (hB : nodupKeysB B = true) : (diff A B).Nodup := by
  simp only [diff]
  refine List.Nodup.append ?_ ?_ ?_
  · exact ((List.filter_sublist A).map Prod.fst).nodup (nodupKeysB_iff_nodup_map.mp hA)
  · exact ((List.filter_sublist B).map Prod.fst).nodup (nodupKeysB_iff_nodup_map.mp hB)
  · intro n h1 h2
    obtain ⟨kv1, hkv1, hfst1⟩ := List.mem_map.mp h1
    obtain ⟨kv2, hkv2, hfst2⟩ := List.mem_map.mp h2
    have hm1 : kv1 ∈ A := (List.mem_filter.mp hkv1).1
    have hm2 := (List.mem_filter.mp hkv2).2
    have hsome : (lookupAL n A).isSome = true := by
      rw [← hfst1]
      obtain ⟨k, r⟩ := kv1
      exact lookupAL_isSome_of_mem hm1
    rw [hfst2] at hm2
    simp only [Option.isNone_iff_eq_none] at hm2
    rw [hm2] at hsome
    simp at hsome

/-! ## Decoded maps are never present-but-empty -/

theorem decodeAttributesAux_ne_nil : ∀ (attrs : List HAttr) (acc : List (String × Value)),
    acc ≠ [] → decodeAttributesAux attrs acc ≠ []
  | [], _, h => h
  | a :: rest, acc, _ =>
    decodeAttributesAux_ne_nil rest _ (insertAL_ne_nil a.name (evalExpr a.expr).1 acc)

theorem decodeAttributes_ne_nil {attrs : List HAttr} (h : attrs ≠ []) :
    decodeAttributes attrs ≠ [] := by
  cases attrs with
  | nil => exact absurd rfl h
  | cons a rest =>
    rw [decodeAttributes, decodeAttributesAux]
    exact decodeAttributesAux_ne_nil rest _ (insertAL_ne_nil a.name (evalExpr a.expr).1 [])

theorem decodeBlocksAux_ne_nil : ∀ (blocks : List HBlock) (acc : List (String × Block)),
    acc ≠ [] → decodeBlocksAux blocks acc ≠ []
  | [], _, h => h
  | .mk ty _labels body :: rest, acc, _ =>
    decodeBlocksAux_ne_nil rest _ (insertAL_ne_nil ty (decodeBody body) acc)

theorem decodeBlocks_ne_nil {blocks : List HBlock} (h : blocks ≠ []) :
    decodeBlocks blocks ≠ [] := by
  cases blocks with
  | nil => exact absurd rfl h
  | cons b rest =>
    obtain ⟨ty, labels, body⟩ := b
    rw [decodeBlocks, decodeBlocksAux]
    exact decodeBlocksAux_ne_nil rest _ (insertAL_ne_nil ty (decodeBody body) [])

/-! ## Locating an attribute by name when names are unique -/

theorem find?_name_of_nodup {attrs : List HAttr} {a : HAttr}
    (hn : (attrs.map HAttr.name).Nodup) (hm : a ∈ attrs) :
    attrs.find? (fun x => x.name == a.name) = some a := by
  induction attrs with
  | nil => simp at hm
  | cons x rest ih =>
    simp only [List.map_cons, List.nodup_cons] at hn
    rcases List.mem_cons.mp hm with h1 | h1
    · subst h1
      simp [List.find?]
    · by_cases hx : (x.name == a.name) = true
      · exfalso
        rw [beq_iff_eq] at hx
        exact hn.1 (hx ▸ List.mem_map.mpr ⟨a, h1, rfl⟩)
      · simp only [Bool.not_eq_true] at hx
        simp only [List.find?, hx]
        exact ih hn.2 h1

/-! ## Characterization of the selected top-level names -/

theorem selected_resourceName_iff {b : HBlock} {name : String} :
    (selected b = true ∧ resourceName b = some name) ↔
      ((b.btype = "resource" ∧ ∃ l0 l1 rest, b.labels = l0 :: l1 :: rest ∧
          name = l0 ++ "." ++ l1) ∨
       (b.btype = "module" ∧ ∃ l0 rest, b.labels = l0 :: rest ∧
          name = "module." ++ l0)) := by
  obtain ⟨ty, labels, body⟩ := b
  by_cases hres : ty = "resource"
  · subst hres
    cases labels with
    | nil =>
      constructor
      · rintro ⟨-, hname⟩
        simp [resourceName, HBlock.btype, HBlock.labels] at hname
      · rintro (⟨-, a, b2, r2, hlab, -⟩ | ⟨hmod, -⟩)
        · simp [HBlock.labels] at hlab
        · simp [HBlock.btype] at hmod
    | cons l0 ltl =>
      cases ltl with
      | nil =>
        constructor
        · rintro ⟨-, hname⟩
          simp [resourceName, HBlock.btype, HBlock.labels] at hname
        · rintro (⟨-, a, b2, r2, hlab, -⟩ | ⟨hmod, -⟩)
          · simp [HBlock.labels] at hlab
          · simp [HBlock.btype] at hmod
      | cons l1 rest =>
        constructor
        · rintro ⟨-, hname⟩
          have hname2 : l0 ++ "." ++ l1 = name := by
            simpa [resourceName, HBlock.btype, HBlock.labels] using hname
          exact Or.inl ⟨rfl, l0, l1, rest, rfl, hname2.symm⟩
        · rintro (⟨-, a, b2, r2, hlab, hname⟩ | ⟨hmod, -⟩)
          · obtain ⟨rfl, rfl, rfl⟩ : l0 = a ∧ l1 = b2 ∧ rest = r2 := by
              simpa [HBlock.labels] using hlab
            refine ⟨by simp [selected, HBlock.btype], ?_⟩
            simp [resourceName, HBlock.btype, HBlock.labels, hname]
          · simp [HBlock.btype] at hmod
  · by_cases hmod : ty = "module"
    · subst hmod
      cases labels with
      | nil =>
        constructor
        · rintro ⟨-, hname⟩
          simp [resourceName, HBlock.btype, HBlock.labels] at hname
        · rintro (⟨hres2, -⟩ | ⟨-, a, r2, hlab, -⟩)
          · simp [HBlock.btype] at hres2
          · simp [HBlock.labels] at hlab
      | cons l0 rest =>
        constructor
        · rintro ⟨-, hname⟩
          have hname2 : "module." ++ l0 = name := by
            simpa [resourceName, HBlock.btype, HBlock.labels] using hname
          exact Or.inr ⟨rfl, l0, rest, rfl, hname2.symm⟩
        · rintro (⟨hres2, -⟩ | ⟨-, a, r2, hlab, hname⟩)
          · simp [HBlock.btype] at hres2
          · obtain ⟨rfl, rfl⟩ : l0 = a ∧ rest = r2 := by
              simpa [HBlock.labels] using hlab
            refine ⟨by simp [selected, HBlock.btype], ?_⟩
            simp [resourceName, HBlock.btype, HBlock.labels, hname]
    · constructor
      · rintro ⟨hsel, -⟩
        simp [selected, HBlock.btype, hres, hmod] at hsel
      · rintro (⟨hres2, -⟩ | ⟨hmod2, -⟩)
        · simp [HBlock.btype, hres] at hres2
        · simp [HBlock.btype, hmod] at hmod2

theorem parse_name_mem_iff {bs : List HBlock} {c : List (String × Resource)}
    (h : parse bs = some c) (name : String) :
    (lookupAL name c).isSome = true ↔
      ∃ b ∈ bs, selected b = true ∧ resourceName b = some name := by
  rw [parse_lookup h name]
  constructor
  · intro hs
    cases hf : (bs.filter selected).reverse.find? (fun b => resourceName b == some name) with
    | none => rw [hf] at hs; simp at hs
    | some b =>
      have hname : resourceName b = some name := by
        have hpred := List.find?_some hf
        simpa using hpred
      have hmem : b ∈ (bs.filter selected).reverse := List.mem_of_find?_eq_some hf
      rw [List.mem_reverse] at hmem
      have hmem2 := List.mem_filter.mp hmem
      exact ⟨b, hmem2.1, hmem2.2, hname⟩
  · rintro ⟨b, hmem, hsel, hname⟩
    have hsome :
        ((bs.filter selected).reverse.find? (fun x => resourceName x == some name)).isSome
          = true := by
      refine List.find?_isSome.mpr ⟨b, ?_, ?_⟩
      · rw [List.mem_reverse]
        exact List.mem_filter.mpr ⟨hmem, hsel⟩
      · simp [hname]
    cases hf : (bs.filter selected).reverse.find? (fun x => resourceName x == some name) with
    | none => rw [hf] at hsome; simp at hsome
    | some b2 =>
      have hname2 : resourceName b2 = some name := by
        have hpred := List.find?_some hf
        simpa using hpred
      rw [decodeResource_isSome, hname2]
      rfl

/-! # The claims -/

/-- C1: for every pair of parsed Collections `base` and `target` (Go maps,
so without duplicate keys), a declaration name is in the diff result iff it
is present in `base` but absent from `target`, present in `target` but
absent from `base`, or present in both with the two Declarations not
deep-structurally equal (`resourceEq`, the embedding of
`reflect.DeepEqual`); any difference anywhere in the tree makes
`resourceEq` false and so marks the whole top-level name. -/
theorem c1_diff_membership (A B : List (String × Resource))
    (hA : nodupKeysB A = true) (hB : nodupKeysB B = true) (n : String) :
    n ∈ diff A B ↔
      ((lookupAL n A).isSome = true ∧ lookupAL n B = none) ∨
      ((lookupAL n B).isSome = true ∧ lookupAL n A = none) ∨
      (∃ r1 r2, lookupAL n A = some r1 ∧ lookupAL n B = some r2 ∧
        resourceEq r1 r2 = false) :=
  diff_mem_iff hA hB n

theorem c1_diff_membership_witness :
    "x" ∈ diff [("x", Resource.mk "x" none none)] [] ↔
      ((lookupAL "x" [("x", Resource.mk "x" none none)]).isSome = true ∧
        lookupAL "x" ([] : List (String × Resource)) = none) ∨
      ((lookupAL "x" ([] : List (String × Resource))).isSome = true ∧
        lookupAL "x" [("x", Resource.mk "x" none none)] = none) ∨
      (∃ r1 r2, lookupAL "x" [("x", Resource.mk "x" none none)] = some r1 ∧
        lookupAL "x" ([] : List (String × Resource)) = some r2 ∧
        resourceEq r1 r2 = false) :=
  c1_diff_membership [("x", Resource.mk "x" none none)] [] rfl rfl "x"

/-- C2 (as stated, refuted): the claim requires the Collection to contain
exactly the top-level blocks of the resource kind taking **exactly two**
labels (or module kind taking exactly one).  The code indexes
`block.Labels[0]` and `block.Labels[1]` without checking the label count:
a resource block with three labels parses fine, is included, and is named
from the first two labels — here `resource "a" "b" "c" {}` yields the
declaration `a.b` even though no block takes exactly two labels. -/
theorem c2_counterexample :
    (parse [HBlock.mk "resource" ["a", "b", "c"] (HBody.mk [] [])] =
      some [("a.b", Resource.mk "a.b" none none)]) ∧
    ¬(∃ b ∈ [HBlock.mk "resource" ["a", "b", "c"] (HBody.mk [] [])],
        (b.btype = "resource" ∧ ∃ l0 l1, b.labels = [l0, l1] ∧
          "a.b" = l0 ++ "." ++ l1) ∨
        (b.btype = "module" ∧ ∃ l0, b.labels = [l0] ∧ "a.b" = "module." ++ l0)) := by
  refine ⟨rfl, ?_⟩
  rintro ⟨b, hb, hcase⟩
  obtain rfl := List.mem_singleton.mp hb
  rcases hcase with ⟨-, l0, l1, hl, -⟩ | ⟨hty, -⟩
  · simp [HBlock.labels] at hl
  · simp [HBlock.btype] at hty

/-- C2 (amended): for every parsed document, the resulting Collection
contains exactly the names contributed by top-level blocks whose header
keyword is `resource` with **at least** two labels (named from the first
two as `<label0>.<label1>`, extra labels ignored) or `module` with at
least one label (named `module.<label>`); top-level blocks of any other
keyword are skipped entirely, are not recursed into, and contribute
nothing.  A `resource`/`module` block with fewer labels makes the whole
program panic on label indexing (`parse` returns `none`), so it never
yields a Collection at all. -/
theorem c2_parse_membership (bs : List HBlock) (c : List (String × Resource))
    (h : parse bs = some c) (name : String) :
    (lookupAL name c).isSome = true ↔
      ∃ b ∈ bs,
        ((b.btype = "resource" ∧ ∃ l0 l1 rest, b.labels = l0 :: l1 :: rest ∧
            name = l0 ++ "." ++ l1) ∨
         (b.btype = "module" ∧ ∃ l0 rest, b.labels = l0 :: rest ∧
            name = "module." ++ l0)) := by
  rw [parse_name_mem_iff h name]
  constructor
  · rintro ⟨b, hmem, hsel, hname⟩
    exact ⟨b, hmem, selected_resourceName_iff.mp ⟨hsel, hname⟩⟩
  · rintro ⟨b, hmem, hform⟩
    have h2 := selected_resourceName_iff.mpr hform
    exact ⟨b, hmem, h2.1, h2.2⟩

theorem c2_parse_membership_witness :
    (lookupAL "module.net" [("module.net", Resource.mk "module.net" none none)]).isSome
        = true ↔
      ∃ b ∈ [HBlock.mk "module" ["net"] (HBody.mk [] []),
             HBlock.mk "output" ["o"] (HBody.mk [] [])],
        ((b.btype = "resource" ∧ ∃ l0 l1 rest, b.labels = l0 :: l1 :: rest ∧
            "module.net" = l0 ++ "." ++ l1) ∨
         (b.btype = "module" ∧ ∃ l0 rest, b.labels = l0 :: rest ∧
            "module.net" = "module." ++ l0)) :=
  c2_parse_membership
    [HBlock.mk "module" ["net"] (HBody.mk [] []),
     HBlock.mk "output" ["o"] (HBody.mk [] [])]
    [("module.net", Resource.mk "module.net" none none)] rfl "module.net"

/-- C3: the rendered output is exactly the literal sentinel
`-refresh=false` when the changed list is empty, and otherwise exactly the
concatenation of one `-target <Name> ` pair per changed name (trailing
space after each), in the order of the changed list, with no other
text. -/
theorem c3_render_output (changed : List String) :
    render changed =
      if changed.isEmpty then "-refresh=false"
      else String.join (changed.map fun n => "-target " ++ n ++ " ") := by
  cases changed with
  | nil => rfl
  | cons a l =>
    rw [render]
    rw [if_pos (by simp)]
    rw [render_foldl]
    rw [if_neg (by simp)]
    simp

/-- C4: an attribute whose expression fails to evaluate in the empty
evaluation context (`evalExpr` reports errors) does not abort the parse
and the error is not propagated: the attribute is recorded in the decoded
map with the distinguished unknown Value, and whether `parse` succeeds
depends only on the selected blocks' label counts, never on attribute
expressions.  (Attribute names are unique within one body — HCL rejects
duplicates — expressed by the `Nodup` hypothesis.) -/
theorem c4_eval_failure_tolerated :
    (∀ (attrs : List HAttr) (a : HAttr), a ∈ attrs → (attrs.map HAttr.name).Nodup →
      (evalExpr a.expr).2 = true →
      lookupAL a.name (decodeAttributes attrs) = some Value.unknown) ∧
    (∀ bs : List HBlock, (parse bs).isSome = true ↔
      ∀ b ∈ bs, selected b = true → (resourceName b).isSome = true) := by
  constructor
  · intro attrs a hmem hnodup hfail
    have hexpr : a.expr = HExpr.unresolvable := by
      cases hx : a.expr with
      | lit v => rw [hx] at hfail; simp [evalExpr] at hfail
      | unresolvable => rfl
    rw [show decodeAttributes attrs = decodeAttributesAux attrs [] from rfl]
    rw [decodeAttributesAux_lookup]
    have hrevn : (attrs.reverse.map HAttr.name).Nodup := by
      rw [List.map_reverse]
      exact List.nodup_reverse.mpr hnodup
    have hrevm : a ∈ attrs.reverse := List.mem_reverse.mpr hmem
    rw [find?_name_of_nodup hrevn hrevm]
    show some (evalExpr a.expr).1 = some Value.unknown
    rw [hexpr]
    rfl
  · intro bs
    exact parse_isSome_iff

theorem c4_eval_failure_tolerated_witness :
    lookupAL "x" (decodeAttributes [HAttr.mk "x" HExpr.unresolvable]) =
      some Value.unknown :=
  c4_eval_failure_tolerated.1 [HAttr.mk "x" HExpr.unresolvable]
    (HAttr.mk "x" HExpr.unresolvable) (List.mem_singleton.mpr rfl) (by simp) rfl

/-- C5: last-write-wins at every level.  Top level: the Collection's entry
for a name is the decoding of the **last** selected top-level block with
that name in source order (`find?` over the reversed block list).
Nested level: the Blocks mapping's entry for a type keyword is the decoded
body of the **last** sibling block of that type. -/
theorem c5_last_write_wins (bs : List HBlock) (c : List (String × Resource))
    (h : parse bs = some c) :
    (∀ name, lookupAL name c =
        match (bs.filter selected).reverse.find?
            (fun b => resourceName b == some name) with
        | some b => decodeResource b
        | none => none) ∧
    (∀ (blocks : List HBlock) (name : String),
        lookupAL name (decodeBlocks blocks) =
          match blocks.reverse.find? (fun b => b.btype == name) with
          | some b => some (decodeBody b.body)
          | none => none) := by
  constructor
  · exact fun name => parse_lookup h name
  · intro blocks name
    rw [show decodeBlocks blocks = decodeBlocksAux blocks [] from rfl]
    rw [decodeBlocksAux_lookup]
    cases blocks.reverse.find? (fun b => b.btype == name) <;> rfl

theorem c5_last_write_wins_witness :
    lookupAL "x.a"
        [("x.a", Resource.mk "x.a" (some [("k", Value.str "2")]) none)] =
      some (Resource.mk "x.a" (some [("k", Value.str "2")]) none) :=
  ((c5_last_write_wins
      [HBlock.mk "resource" ["x", "a"] (HBody.mk [HAttr.mk "k" (.lit (.str "1"))] []),
       HBlock.mk "resource" ["x", "a"] (HBody.mk [HAttr.mk "k" (.lit (.str "2"))] [])]
      [("x.a", Resource.mk "x.a" (some [("k", Value.str "2")]) none)] rfl).1
    "x.a").trans rfl

/-- C6: parsing is deterministic — a second parse of the same document
yields the same Collection — and the diff of a parsed Collection against
itself (equivalently, against an independent parse of identical bytes) is
empty.  The `docWF` hypothesis records the Go-map invariant that keyed
collections inside literal values have no duplicate keys. -/
theorem c6_parse_self_diff_empty (bs : List HBlock) (c : List (String × Resource))
    (hwf : docWF bs = true) (h : parse bs = some c) :
    (∀ c2, parse bs = some c2 → c2 = c) ∧ diff c c = [] := by
  obtain ⟨h1, h2⟩ := parse_wf hwf h
  refine ⟨?_, diff_self h1 h2⟩
  intro c2 h2'
  rw [h] at h2'
  exact (Option.some.injEq .. ▸ h2').symm

theorem c6_parse_self_diff_empty_witness :
    diff [("module.net", Resource.mk "module.net"
        (some [("source", Value.str "./m")]) none)]
      [("module.net", Resource.mk "module.net"
        (some [("source", Value.str "./m")]) none)] = [] :=
  (c6_parse_self_diff_empty
    [HBlock.mk "module" ["net"] (HBody.mk [HAttr.mk "source" (.lit (.str "./m"))] [])]
    [("module.net", Resource.mk "module.net"
        (some [("source", Value.str "./m")]) none)] rfl rfl).2

/-- C7: the changed-name set is symmetric: for Collections A and B that
are Go-representable (`collWF`: no duplicate keys anywhere and no
duplicate keys inside values), `diff A B` and `diff B A` contain exactly
the same names, even though the algorithm is directionally phrased. -/
theorem c7_diff_symmetric (A B : List (String × Resource))
    (hA : collWF A = true) (hB : collWF B = true) (n : String) :
    n ∈ diff A B ↔ n ∈ diff B A := by
  obtain ⟨hA1, hA2⟩ := and_eq_true_elim hA
  obtain ⟨hB1, hB2⟩ := and_eq_true_elim hB
  rw [diff_mem_iff hA1 hB1 n, diff_mem_iff hB1 hA1 n]
  have hsymm : ∀ (X Y : List (String × Resource)),
      (X.all fun kv => resourceWF kv.2) = true →
      (Y.all fun kv => resourceWF kv.2) = true →
      ∀ {r1 r2 : Resource}, lookupAL n X = some r1 → lookupAL n Y = some r2 →
      resourceEq r1 r2 = false → resourceEq r2 r1 = false := by
    intro X Y hX hY r1 r2 hl1 hl2 hne
    cases hq : resourceEq r2 r1 with
    | false => rfl
    | true =>
      have hw1 : resourceWF r1 = true :=
        List.all_eq_true.mp hX (n, r1) (mem_of_lookupAL_eq_some hl1)
      have hw2 : resourceWF r2 = true :=
        List.all_eq_true.mp hY (n, r2) (mem_of_lookupAL_eq_some hl2)
      rw [resourceEq_symm hw2 hw1 hq] at hne
      exact hne
  constructor
  · rintro (⟨h1, h2⟩ | ⟨h1, h2⟩ | ⟨r1, r2, hl1, hl2, hne⟩)
    · exact Or.inr (Or.inl ⟨h1, h2⟩)
    · exact Or.inl ⟨h1, h2⟩
    · exact Or.inr (Or.inr ⟨r2, r1, hl2, hl1, hsymm A B hA2 hB2 hl1 hl2 hne⟩)
  · rintro (⟨h1, h2⟩ | ⟨h1, h2⟩ | ⟨r2, r1, hl2, hl1, hne⟩)
    · exact Or.inr (Or.inl ⟨h1, h2⟩)
    · exact Or.inl ⟨h1, h2⟩
    · exact Or.inr (Or.inr ⟨r1, r2, hl1, hl2, hsymm B A hB2 hA2 hl2 hl1 hne⟩)

theorem c7_diff_symmetric_witness :
    "x" ∈ diff [("x", Resource.mk "x" none none)] [] ↔
      "x" ∈ diff [] [("x", Resource.mk "x" none none)] :=
  c7_diff_symmetric [("x", Resource.mk "x" none none)] [] rfl rfl "x"

/-- C8 (as stated, refuted): `reflect.DeepEqual` distinguishes a Go `nil`
map from an empty non-nil map, so two Declarations that differ only in
absence-versus-empty Attributes ARE reported as changed by the Differ. -/
theorem c8_counterexample :
    diff [("n", Resource.mk "n" none none)] [("n", Resource.mk "n" (some []) none)]
        = ["n"] ∧
      (Resource.mk "n" none none).attributes = none ∧
      (Resource.mk "n" (some []) none).attributes = some [] ∧
      (Resource.mk "n" none none).blocks = (Resource.mk "n" (some []) none).blocks ∧
      (Resource.mk "n" none none).name = (Resource.mk "n" (some []) none).name :=
  ⟨rfl, rfl, rfl, rfl, rfl⟩

/-- C8 (amended): for every Declaration produced by `decodeResource`, the
Attributes mapping is present (non-nil) iff the declaration has at least
one direct attribute, and whenever present it is non-empty; likewise for
the Blocks mapping.  Hence parsed Declarations never exhibit an
empty-but-present mapping, so the absence-versus-empty distinction that
the Differ's raw equality draws (see the counterexample) can never arise
between two parsed Declarations. -/
theorem c8_absent_vs_empty (b : HBlock) (r : Resource)
    (h : decodeResource b = some r) :
    ((r.attributes = none ↔ b.body.attributes = []) ∧
      (∀ m, r.attributes = some m → m ≠ [])) ∧
    ((r.blocks = none ↔ b.body.blocks = []) ∧
      (∀ m, r.blocks = some m → m ≠ [])) := by
  obtain ⟨ty, labels, body⟩ := b
  obtain ⟨attrs, blocks⟩ := body
  simp only [decodeResource] at h
  cases hn : resourceName (HBlock.mk ty labels (HBody.mk attrs blocks)) with
  | none => rw [hn] at h; simp at h
  | some n =>
    rw [hn] at h
    simp only [Option.some.injEq] at h
    rw [← h]
    simp only [HBlock.body, HBody.attributes, HBody.blocks, decodeBody,
      Block.attributes, Block.nested]
    constructor
    · constructor
      · by_cases hlen : attrs.length > 0
        · rw [if_pos hlen]
          constructor
          · intro hc
            simp at hc
          · intro hc
            rw [hc] at hlen
            simp at hlen
        · rw [if_neg hlen]
          simp only [true_iff]
          simp only [gt_iff_lt, Nat.pos_iff_ne_zero, ne_eq, Decidable.not_not] at hlen
          exact List.length_eq_zero.mp hlen
      · intro m hm
        by_cases hlen : attrs.length > 0
        · rw [if_pos hlen] at hm
          obtain rfl : decodeAttributes attrs = m := by simpa using hm
          exact decodeAttributes_ne_nil (by rintro rfl; simp at hlen)
        · rw [if_neg hlen] at hm
          simp at hm
    · constructor
      · by_cases hlen : blocks.length > 0
        · rw [if_pos hlen]
          constructor
          · intro hc
            simp at hc
          · intro hc
            rw [hc] at hlen
            simp at hlen
        · rw [if_neg hlen]
          simp only [true_iff]
          simp only [gt_iff_lt, Nat.pos_iff_ne_zero, ne_eq, Decidable.not_not] at hlen
          exact List.length_eq_zero.mp hlen
      · intro m hm
        by_cases hlen : blocks.length > 0
        · rw [if_pos hlen] at hm
          obtain rfl : decodeBlocksAux blocks [] = m := by simpa using hm
          exact decodeBlocks_ne_nil (by rintro rfl; simp at hlen)
        · rw [if_neg hlen] at hm
          simp at hm

theorem c8_absent_vs_empty_witness :
    (Resource.mk "t.a" none none).attributes = none :=
  ((c8_absent_vs_empty (HBlock.mk "resource" ["t", "a"] (HBody.mk [] []))
    (Resource.mk "t.a" none none) rfl).1.1).mpr rfl

/-- C9: the Differ is total by construction (`diff` is a function on any
pair of Collections, empty ones included, and always returns a list); for
Go-representable inputs (no duplicate keys) each declaration name appears
at most once in the result, even though it could be discovered once per
direction, and two empty Collections give the empty result. -/
theorem c9_diff_total (A B : List (String × Resource))
    (hA : nodupKeysB A = true) (hB : nodupKeysB B = true) :
    (diff A B).Nodup ∧ (A = [] → B = [] → diff A B = []) :=
  ⟨diff_nodup hA hB, by rintro rfl rfl; rfl⟩

theorem c9_diff_total_witness :
    (diff [] []).Nodup ∧
      (([] : List (String × Resource)) = [] →
        ([] : List (String × Resource)) = [] → diff [] [] = []) :=
  c9_diff_total [] [] rfl rfl

/-- C10: nested blocks are keyed in the model only by their header
keyword; their labels are discarded by `decodeBlocks`.  Two documents
that agree after erasing all nested (non-top-level) block labels parse to
the same Collection, and the diff between the two parses is empty. -/
theorem c10_nested_labels_discarded (bs1 bs2 : List HBlock)
    (c1 c2 : List (String × Resource)) (hstrip : stripDoc bs1 = stripDoc bs2)
    (hwf : docWF bs1 = true) (h1 : parse bs1 = some c1) (h2 : parse bs2 = some c2) :
    c2 = c1 ∧ diff c1 c2 = [] := by
  have hp : parse bs1 = parse bs2 := by
    rw [← parse_strip bs1, hstrip, parse_strip]
  rw [← hp] at h2
  rw [h1] at h2
  obtain rfl : c1 = c2 := by simpa using h2
  obtain ⟨hw1, hw2⟩ := parse_wf hwf h1
  exact ⟨rfl, diff_self hw1 hw2⟩

theorem c10_nested_labels_discarded_witness :
    [("x.a", Resource.mk "x.a" none (some [("ing", Block.mk none none)]))] =
        [("x.a", Resource.mk "x.a" none (some [("ing", Block.mk none none)]))] ∧
      diff [("x.a", Resource.mk "x.a" none (some [("ing", Block.mk none none)]))]
        [("x.a", Resource.mk "x.a" none (some [("ing", Block.mk none none)]))] = [] :=
  c10_nested_labels_discarded
    [HBlock.mk "resource" ["x", "a"]
      (HBody.mk [] [HBlock.mk "ing" ["lbl"] (HBody.mk [] [])])]
    [HBlock.mk "resource" ["x", "a"]
      (HBody.mk [] [HBlock.mk "ing" ["other"] (HBody.mk [] [])])]
    [("x.a", Resource.mk "x.a" none (some [("ing", Block.mk none none)]))]
    [("x.a", Resource.mk "x.a" none (some [("ing", Block.mk none none)]))]
    rfl rfl rfl rfl

end Tfdiff
